import Mathlib

/-!
Verification of the text-parsing core of the `web-components-vscode`
extension (`src/registerHtmlCompletionProvider.ts`, `src/utils.ts`).

JavaScript strings are modeled as `List Char`; a document offset is a `Nat`.
Each definition below is a direct shallow embedding of the corresponding
TypeScript function, with the source name kept.
-/

namespace WebComp

/-- Character class of the regex `[a-zA-Z0-9-]` (tag-name and attribute-name
characters), written with code points: `a`-`z`, `A`-`Z`, `0`-`9`, `-`. -/
def isNameChar (c : Char) : Bool :=
  decide ((97 ≤ c.toNat ∧ c.toNat ≤ 122) ∨ (65 ≤ c.toNat ∧ c.toNat ≤ 90) ∨
    (48 ≤ c.toNat ∧ c.toNat ≤ 57) ∨ c.toNat = 45)

/-- JavaScript regex `\s`: tab, lf, vt, ff, cr, space, nbsp, ogham space,
en-quad..hair-space, line/paragraph separator, narrow nbsp, math space,
ideographic space, BOM. -/
def jsWs (c : Char) : Bool :=
  decide (c.toNat = 32 ∨ c.toNat = 9 ∨ c.toNat = 10 ∨ c.toNat = 11 ∨
    c.toNat = 12 ∨ c.toNat = 13 ∨ c.toNat = 160 ∨ c.toNat = 0x1680 ∨
    (0x2000 ≤ c.toNat ∧ c.toNat ≤ 0x200a) ∨ c.toNat = 0x2028 ∨
    c.toNat = 0x2029 ∨ c.toNat = 0x202f ∨ c.toNat = 0x205f ∨
    c.toNat = 0x3000 ∨ c.toNat = 0xfeff)

/-- ASCII case of `String.prototype.toLowerCase`; the characters it is applied
to in the source are matches of `[a-zA-Z0-9-]`, so the ASCII case suffices. -/
def lowerChar (c : Char) : Char :=
  if 65 ≤ c.toNat ∧ c.toNat ≤ 90 then Char.ofNat (c.toNat + 32) else c

/-- The single-quote character (code point 39). -/
def sq : Char := Char.ofNat 39

/-- Result of the backward scan for `<` in `getHtmlTagName` (source lines
22-42): either the index of the found `<`, or an early return carrying the
`isEndTag` flag. -/
inductive BackRes where
  | found (s : Nat)
  | stop (isEnd : Bool)
deriving DecidableEq

/-- Backward scan of `getHtmlTagName`: starting at the cursor offset, walk
left looking at each character; `<` ends the scan successfully, `>` returns
the empty result, `/` returns the empty result with `isEndTag = true`.
After the loop the character at index 0 is required to be `<`. -/
def backScan (T : List Char) : Nat → BackRes
  | 0 => if T[0]? = some '<' then .found 0 else .stop false
  | s+1 =>
    match T[s]? with
    | some c =>
      if c = '<' then .found s
      else if c = '>' then .stop false
      else if c = '/' then .stop true
      else backScan T s
    | none => backScan T s

/-- Forward scan of `getHtmlTagName` (source lines 45-54): starting at the
cursor offset, repeatedly advance by one (so the character at the cursor
offset itself is never examined) and stop at the first `>`; `none` when the
end of the text is reached first.  The JS loop advances `endOffset` by one
per iteration and never beyond `T.length`, so `T.length + 1` steps of fuel
are enough for the loop to reach its natural exit. -/
def fwdScanF (T : List Char) : Nat → Nat → Option Nat
  | _, 0 => none
  | e, fuel+1 =>
    if e < T.length then
      (if T[e+1]? = some '>' then some (e+1) else fwdScanF T (e+1) fuel)
    else none

/-- Forward scan with sufficient fuel. -/
def fwdScan (T : List Char) (O : Nat) : Option Nat := fwdScanF T O (T.length + 1)

/-- The `range` value of a tag-scan result: `{ start: startOffset + 1, end: endOffset }`. -/
structure TagRange where
  start : Nat
  stop : Nat
deriving DecidableEq

/-- Result record of `getHtmlTagName`: `{ tagName, range, isEndTag }`. -/
structure TagScanRes where
  tagName : Option (List Char)
  range : Option TagRange
  isEndTag : Bool
deriving DecidableEq

/-- `JavaScript String.prototype.substring(a, b)`: both indices are clamped to
`[0, length]` and swapped when out of order. -/
def jsSubstring (T : List Char) (a b : Nat) : List Char :=
  let a' := min a T.length
  let b' := min b T.length
  (T.drop (min a' b')).take (max a' b' - min a' b')

/-- The tag-name regex `^\s*(\/?)\s*([a-zA-Z0-9-]+)` (and, with the trailing
`\s*` of the variant used by `getAttributeName`, `^\s*(\/?)\s*([a-zA-Z0-9-]+)\s*`).
All three character classes are disjoint, so the match is deterministic:
skip whitespace, optionally take one `/`, skip whitespace, take a nonempty
run of name characters.  Returns `(isClosingTag, tag name, length of the
whole match including trailing whitespace)`; `none` when no name is found
(then backtracking cannot help, because dropping the optional `/` leaves the
name class facing the same non-name character).  The components are split
into named functions; `tnSlash` is the end-tag marker group `(\/?)`. -/
def tnSlash (c : List Char) : Bool := decide ((c.dropWhile jsWs).headD ' ' = '/')

/-- The remainder of the tag content after the leading whitespace and the
optional `/` of the tag-name regex. -/
def tnRest (c : List Char) : List Char :=
  if tnSlash c then (c.dropWhile jsWs).tail else c.dropWhile jsWs

/-- The tag name captured by `([a-zA-Z0-9-]+)`: the maximal name run after
the second `\s*`. -/
def tnName (c : List Char) : List Char :=
  ((tnRest c).dropWhile jsWs).takeWhile isNameChar

/-- The length of the whole match of `^\s*(\/?)\s*([a-zA-Z0-9-]+)\s*`
(`tagNameMatch[0].length` in the source). -/
def tnLen (c : List Char) : Nat :=
  (c.takeWhile jsWs).length + (if tnSlash c then 1 else 0) +
  ((tnRest c).takeWhile jsWs).length + (tnName c).length +
  ((((tnRest c).dropWhile jsWs).drop (tnName c).length).takeWhile jsWs).length

def tagNameMatch (c : List Char) : Option (Bool × List Char × Nat) :=
  if (tnName c).length = 0 then none else some (tnSlash c, tnName c, tnLen c)

/-- `getHtmlTagName(document, position)` of `registerHtmlCompletionProvider.ts`
(the identical scan also opens `getAttributeNameAtPosition` in `utils.ts`):
backward scan for `<`, forward scan for `>`, extract the content strictly
between them, and parse the tag name with the regex above; the name is
lower-cased, and it is reported as `null` for a closing tag although the
range is still populated. -/
def getHtmlTagName (T : List Char) (O : Nat) : TagScanRes :=
  match backScan T O with
  | .stop e => ⟨none, none, e⟩
  | .found s =>
    match fwdScan T O with
    | none => ⟨none, none, false⟩
    | some j =>
      match tagNameMatch (jsSubstring T (s+1) j) with
      | none => ⟨none, none, false⟩
      | some (sl, nm, _) =>
        ⟨if sl then none else some (nm.map lowerChar), some ⟨s+1, j⟩, false⟩

/-- `getTagContent(document, position, tagRange)`: bounds check, then the
substring of the document at the tag range. -/
def getTagContent (T : List Char) (O : Nat) (r : TagRange) : Option (List Char) :=
  if O < r.start ∨ r.stop < O then none
  else some (jsSubstring T r.start r.stop)

/-- The `offsetMap` loop of `getAttributeName`: original indices of the
characters of the attribute region that are not `\n` or `\r`. -/
def offMap : List Char → Nat → List Nat
  | [], _ => []
  | c :: t, i => if c = '\n' ∨ c = '\r' then offMap t (i+1) else i :: offMap t (i+1)

/-- The `cleanAttrContent` accumulator of the same loop: the attribute region
with `\n` and `\r` characters removed. -/
def cleanOf (l : List Char) : List Char :=
  l.filter (fun c => decide (¬(c = '\n' ∨ c = '\r')))

/-- The cursor-mapping loop of `getAttributeName` step 4: index of the first
entry of `offsetMap` that is `≥ attrRelativeOffset`. -/
def findIdxGe : List Nat → Int → Option Nat
  | [], _ => none
  | x :: t, v => if v ≤ (x : Int) then some 0 else (findIdxGe t v).map (· + 1)

/-- Length of a match of the regex value alternation `"[^"]*"|'[^']*'|[^\s>]+`
at the head of `r2`.  When a quoted alternative has no closing quote it
fails and the bare alternative `[^\s>]+` takes over starting at the opening
quote (which is neither whitespace nor `>`). -/
def scanValue (r2 : List Char) : Option Nat :=
  match r2 with
  | [] => none
  | c :: t =>
    if c = '"' then
      let inner := t.takeWhile (fun x => decide (¬ x = '"'))
      if (t.drop inner.length).length ≠ 0 then some (inner.length + 2)
      else some ((r2.takeWhile fun x => !jsWs x && !(x = '>')).length)
    else if c = sq then
      let inner := t.takeWhile (fun x => decide (¬ x = sq))
      if (t.drop inner.length).length ≠ 0 then some (inner.length + 2)
      else some ((r2.takeWhile fun x => !jsWs x && !(x = '>')).length)
    else
      let bare := r2.takeWhile fun x => !jsWs x && !(x = '>')
      if bare.length = 0 then none else some bare.length

/-- Length of a match of the optional group `\s*=\s*("[^"]*"|'[^']*'|[^\s>]+)`
at the head of `l`; `none` when the group does not match there (the
whitespace classes cannot be shrunk to rescue a failed alternation, since
the alternation cannot start with whitespace). -/
def valuePartLen (l : List Char) : Option Nat :=
  let w1 := (l.takeWhile jsWs).length
  match l.drop w1 with
  | c :: rest =>
    if c = '=' then
      let w2 := (rest.takeWhile jsWs).length
      match scanValue (rest.drop w2) with
      | some v => some (w1 + 1 + w2 + v)
      | none => none
    else none
  | [] => none

/-- One `attrRegex.exec` step of the loop in `getAttributeName`, on the
suffix of the clean attribute text starting at absolute index `i` (the
regex `lastIndex`): the leftmost match of
`([a-zA-Z0-9-]+)(?:\s*=\s*("[^"]*"|'[^']*'|[^\s>]+))?` starts at the first
name character at or after `i`; it takes the maximal name run and then the
optional value group.  Returns `(name, match.index, lastIndex)`. -/
def attrExec : List Char → Nat → Option (List Char × Nat × Nat)
  | [], _ => none
  | c :: t, i =>
    if isNameChar c then
      let name := (c :: t).takeWhile isNameChar
      let rest := (c :: t).drop name.length
      some (name, i, i + name.length + (valuePartLen rest).getD 0)
    else attrExec t (i+1)

/-- The `while ((match = attrRegex.exec(...)))` loop: report the lower-cased
name of the first match whose `[index, lastIndex]` interval contains the
cursor position (inclusive on both ends), else advance `lastIndex`.  Each
successful `exec` strictly advances `lastIndex` and needs `lastIndex` to be
inside the string, so `s.length + 1` steps of fuel always reach the loop's
natural exit. -/
def attrLoopF (s : List Char) (pos : Int) : Nat → Nat → Option (List Char)
  | _, 0 => none
  | i, fuel+1 =>
    match attrExec (s.drop i) i with
    | none => none
    | some (name, st, sp) =>
      if (st : Int) ≤ pos ∧ pos ≤ (sp : Int) then some (name.map lowerChar)
      else attrLoopF s pos sp fuel

/-- The exec loop started at `lastIndex = 0`, with sufficient fuel. -/
def attrLoop (s : List Char) (pos : Int) : Option (List Char) :=
  attrLoopF s pos 0 (s.length + 1)

/-- `getAttributeName(document, position, tagRange)` of
`registerHtmlCompletionProvider.ts` (the same code is inlined at the end of
`getAttributeNameAtPosition` in `utils.ts`): bounds check; re-parse the tag
name and cut it off; compute the cursor offset relative to the attribute
region (negative when the cursor sits in the tag-name region, which is
snapped to clean position 0); strip newlines while recording an offset map;
map the cursor through the offset map (`cleanP0`/`cleanCursorPos`, with the
fall-back to the last clean index when the cursor is past every retained
character); then run the attribute regex loop — see `getAttributeName`
below.  `cleanP0` is the first mapping loop of step 4. -/
def cleanP0 (attrContent : List Char) (attrRel : Int) : Int :=
  if 0 ≤ attrRel then
    match findIdxGe (offMap attrContent 0) attrRel with
    | some k => (k : Int)
    | none => -1
  else 0

/-- Step 4 of `getAttributeName` continued: when no retained character maps
at or after the cursor and the clean content is nonempty, fall back to the
last clean index. -/
def cleanCursorPos (attrContent : List Char) (attrRel : Int) : Int :=
  if cleanP0 attrContent attrRel = -1 ∧ (cleanOf attrContent).length ≠ 0 then
    ((cleanOf attrContent).length : Int) - 1
  else cleanP0 attrContent attrRel

def getAttributeName (T : List Char) (O : Nat) (r : TagRange) : Option (List Char) :=
  if O < r.start ∨ r.stop < O then none
  else
    match tagNameMatch (jsSubstring T r.start r.stop) with
    | none => none
    | some (_, _, plen) =>
      attrLoop (cleanOf ((jsSubstring T r.start r.stop).drop plen))
        (cleanCursorPos ((jsSubstring T r.start r.stop).drop plen)
          (((O : Int) - (r.start : Int)) - (plen : Int)))

/-- Result record of `getAttributeNameAtPosition` in `utils.ts`. -/
structure AttrScanRes where
  tagName : Option (List Char)
  attrName : Option (List Char)
  range : Option TagRange
  isEndTag : Bool
deriving DecidableEq

/-- `getAttributeNameAtPosition(document, position)` of `utils.ts`: its body
is textually the backward/forward scan of `getHtmlTagName` followed by the
body of `getAttributeName` on the found range, so it is their composition
(when no range is found the attribute part is never reached). -/
def getAttributeNameAtPosition (T : List Char) (O : Nat) : AttrScanRes :=
  let res := getHtmlTagName T O
  match res.range with
  | none => ⟨res.tagName, none, none, res.isEndTag⟩
  | some r => ⟨res.tagName, getAttributeName T O r, some r, res.isEndTag⟩

/-- One attribute record of the `components.d.json` manifest
(`IComponentsTags` of `types.ts`): `{ description, type, values }`. -/
structure AttrInfo where
  description : List Char
  type : List Char
  values : List (List Char)
deriving DecidableEq

/-- One component record of the manifest: `{ description, attributes }`.
The attribute map is an insertion-ordered association list, matching the
enumeration order of JavaScript object properties for string keys. -/
structure RawEntry where
  description : List Char
  attributes : List (List Char × AttrInfo)
deriving DecidableEq

/-- `Object.assign(target, source)` on attribute maps: source keys overwrite
existing keys in place, new keys are appended in source order. -/
def jsAssign (tgt src : List (List Char × AttrInfo)) : List (List Char × AttrInfo) :=
  src.foldl (fun acc kv =>
    if acc.any (fun p => p.1 == kv.1) then
      acc.map (fun p => if p.1 == kv.1 then (p.1, kv.2) else p)
    else acc ++ [kv]) tgt

/-- `String.prototype.split(',')`. -/
def splitComma : List Char → List (List Char)
  | [] => [[]]
  | c :: t =>
    if c = ',' then [] :: splitComma t
    else
      match splitComma t with
      | h :: r => (c :: h) :: r
      | [] => [[c]]

/-- `String.prototype.trim()` (both ends; JS trims the same whitespace set as
`\s`). -/
def jsTrim (l : List Char) : List Char :=
  ((l.dropWhile jsWs).reverse.dropWhile jsWs).reverse

/-- `key.split(',').map(item => item.trim()).filter(item => item)` of
`loadWorkspaceConfig`: comma-split, trim, drop empties. -/
def splitNames (k : List Char) : List (List Char) :=
  ((splitComma k).map jsTrim).filter (fun s => !(s == []))

/-- State of the merge loop of `loadWorkspaceConfig`.  JavaScript assigns
`obj[key] = value` by reference, so one record can be shared by several
names and `obj[key].description = ...` / `Object.assign(obj[key].attributes,
...)` mutate the shared record; the embedding makes the references explicit
with a heap of records (`heap`, allocation order) and a name table (`obj`,
insertion-ordered) holding heap indices. -/
structure MergeSt where
  heap : List RawEntry
  obj : List (List Char × Nat)
deriving DecidableEq

/-- Read a heap reference. -/
def heapGet (h : List RawEntry) (id : Nat) : RawEntry := h.getD id ⟨[], []⟩

/-- Body of the inner `for (const key of keys)` loop of
`loadWorkspaceConfig`: if the name is already present, overwrite the
description when the incoming one is non-empty (truthy) and
`Object.assign` the attributes, mutating the referenced record; otherwise
bind the name to the incoming record itself (by reference). -/
def mergeName (st : MergeSt) (vid : Nat) (name : List Char) : MergeSt :=
  match st.obj.find? (fun p => p.1 == name) with
  | some p =>
    let v := heapGet st.heap vid
    let t := heapGet st.heap p.2
    let t1 := if v.description ≠ [] then { t with description := v.description } else t
    let t2 := { t1 with attributes := jsAssign t1.attributes v.attributes }
    { st with heap := st.heap.set p.2 t2 }
  | none => { st with obj := st.obj ++ [(name, vid)] }

/-- Body of the outer `for (const [key, value] of Object.entries(customConfig))`
loop: allocate the parsed value (each `JSON.parse` object is fresh) and fold
its comma-separated names. -/
def mergeEntry (st : MergeSt) (kv : List Char × RawEntry) : MergeSt :=
  let vid := st.heap.length
  let st1 : MergeSt := ⟨st.heap ++ [kv.2], st.obj⟩
  (splitNames kv.1).foldl (fun s n => mergeName s vid n) st1

/-- The pure merge loop of `loadWorkspaceConfig` in `utils.ts` (lines 84-103);
the surrounding I/O (workspace lookup, file read, `JSON.parse`) is host glue
outside the core.  The result maps each name to the final value of the
record it references. -/
def loadWorkspaceConfig (entries : List (List Char × RawEntry)) :
    List (List Char × RawEntry) :=
  let st := entries.foldl mergeEntry ⟨[], []⟩
  st.obj.map (fun p => (p.1, heapGet st.heap p.2))

/-- A completion item, modeled by its label and `insertText`
(`detail`/`documentation` carry no control flow). -/
structure CItem where
  label : List Char
  insertText : List Char
deriving DecidableEq

/-- `String.prototype.includes(sub)`. -/
def containsSub (l sub : List Char) : Bool :=
  (List.range (l.length + 1)).any (fun i => (l.drop i).take sub.length == sub)

/-- `provideCompletionItems(document, position)` of
`registerHtmlCompletionProvider.ts` (lines 172-246); `registry` is the
`componentsTags` map and `charBefore` the result of `getCharBeforeCursor()`.
The result is `Except`: `.error` models a thrown `TypeError`, `.ok none`
models returning `undefined`, `.ok (some items)` a returned item list.
`attributes[res2]` is evaluated whenever `res2` is truthy, and throws when
`componentsTags?.[tagName]?.attributes` was `undefined` (unknown tag). -/
def provideCompletionItems (registry : List (List Char × RawEntry))
    (T : List Char) (O : Nat) (charBefore : Option Char) :
    Except (List Char) (Option (List CItem)) :=
  let res := getHtmlTagName T O
  if res.isEndTag then .ok none
  else
    match res.tagName with
    | some tn =>
      let attributesOpt := (registry.find? (fun p => p.1 == tn)).map (fun p => p.2.attributes)
      let step1 : Except (List Char) (Option (List CItem)) :=
        match res.range with
        | some r =>
          match getAttributeName T O r with
          | some a =>
            match attributesOpt with
            | none => .error ("TypeError: Cannot read properties of undefined (reading attribute)".toList)
            | some attrs =>
              match attrs.find? (fun p => p.1 == a) with
              | some kv => .ok (some (kv.2.values.map (fun v => ⟨v, v⟩)))
              | none => .ok none
          | none => .ok none
        | none => .ok none
      match step1 with
      | .error e => .error e
      | .ok (some items) => .ok (some items)
      | .ok none =>
        match attributesOpt with
        | some attrs =>
          let tagContent : List Char :=
            match res.range with
            | some r => (getTagContent T O r).getD []
            | none => []
          .ok (some (attrs.foldl (fun acc kv =>
            if containsSub tagContent (kv.1 ++ ['=']) then acc
            else acc ++ [⟨kv.1, kv.1 ++ "=\"$0\"".toList⟩]) []))
        | none => .ok (some [])
    | none =>
      .ok (some (registry.map (fun p =>
        ⟨p.1, (if charBefore = some '<' then [] else ['<']) ++ p.1 ++
          ">$0</".toList ++ p.1 ++ ['>']⟩)))

/-- One literal-or-dot pattern character of the interpolated directory regex
of `isIgnoredPath`: `.` (as produced by the unescaped `.git`) matches any
character except a line terminator, every other character matches itself. -/
def wildEq (p c : Char) : Bool :=
  if p = '.' then
    decide (¬(c.toNat = 10 ∨ c.toNat = 13 ∨ c.toNat = 0x2028 ∨ c.toNat = 0x2029))
  else p == c

/-- Match the pattern characters against a prefix of the text. -/
def patMatchAt : List Char → List Char → Bool
  | [], _ => true
  | _ :: _, [] => false
  | p :: ps, c :: cs => wildEq p c && patMatchAt ps cs

/-- A match of `new RegExp((^|/) + dir + (/|$))` whose `dir` part starts at
index `i`: preceded by the start of the string or a `/`, the pattern
matches, and it is followed by the end of the string or a `/`. -/
def dirMatchAt (s dir : List Char) (i : Nat) : Bool :=
  (decide (i = 0) || (s[i-1]? == some '/')) && patMatchAt dir (s.drop i) &&
  (decide (i + dir.length = s.length) || (s[i + dir.length]? == some '/'))

/-- `regex.test(normalizedPath)` for the interpolated directory regex:
some match position exists. -/
def regexDirTest (dir s : List Char) : Bool :=
  (List.range (s.length + 1)).any (dirMatchAt s dir)

/-- `filePath.replace(/\\/g, '/').toLowerCase()` of `isIgnoredPath`; both
operations are per-character here (ASCII case). -/
def normalizePath (p : List Char) : List Char :=
  p.map (fun c => lowerChar (if c = '\\' then '/' else c))

/-- `isIgnoredPath(filePath)` of `utils.ts` with its default ignore list
(`dir.toLowerCase()` is the identity on all three entries). -/
def isIgnoredPath (p : List Char) : Bool :=
  ["node_modules".toList, ".git".toList, "dist".toList].any
    (fun d => regexDirTest d (normalizePath p))

/-- Specification-side predicate: offset `O` lies inside a `<...>` span of
`T`, i.e. strictly after some `<` and at or before the matching `>` (the
first subsequent `>` with no `<` or `>` strictly between them). -/
def insideSpan (T : List Char) (O : Nat) : Prop :=
  ∃ i, i < T.length ∧ T[i]? = some '<' ∧ i < O ∧
    ∃ j, j < T.length ∧ T[j]? = some '>' ∧ O ≤ j ∧
      ∀ k, k < j → i < k → ¬(T[k]? = some '<' ∨ T[k]? = some '>')

/-- Specification-side predicate: some `/`-delimited segment of `s` is
exactly `seg` (stated positionally: an occurrence of `seg` bounded on both
sides by the string ends or `/`; for the `/`-free nonempty segment names
used here this is exactly segment equality). -/
def hasSegment (s seg : List Char) : Bool :=
  (List.range (s.length + 1)).any (fun i =>
    (decide (i = 0) || (s[i-1]? == some '/')) && ((s.drop i).take seg.length == seg) &&
    (decide (i + seg.length = s.length) || (s[i + seg.length]? == some '/')))

/-- The value of the attribute-regex loop at clean cursor position `0`: the
lower-cased leading attribute name when the clean attribute region starts
with a name character, otherwise `none` (every match then starts at a
positive index and cannot contain position `0`). -/
def firstAttrAt0 (cl : List Char) : Option (List Char) :=
  if cl ≠ [] ∧ isNameChar (cl.headD ' ') = true then
    some ((cl.takeWhile isNameChar).map lowerChar)
  else none

instance (T : List Char) (O : Nat) : Decidable (insideSpan T O) := by
  unfold insideSpan
  infer_instance

/-- Concrete attribute record used in the manifest-merge scenario of the
specification (`{x: ...}`). -/
def cfgX : AttrInfo := ⟨"dx".toList, "String".toList, ["1".toList]⟩

/-- Concrete attribute record used in the manifest-merge scenario of the
specification (`{y: ...}`). -/
def cfgY : AttrInfo := ⟨"dy".toList, "Number".toList, ["2".toList]⟩

/-- The manifest of the specification scenario: key `"a,b"` with
`{description: "d1", attributes: {x}}`, then key `"b"` with
`{description: "d2", attributes: {y}}`. -/
def cfgEntries : List (List Char × RawEntry) :=
  [("a,b".toList, ⟨"d1".toList, [("x".toList, cfgX)]⟩),
   ("b".toList, ⟨"d2".toList, [("y".toList, cfgY)]⟩)]

theorem backScan_succ_some (T : List Char) (m : Nat) (c : Char) (hc : T[m]? = some c) :
    backScan T (m+1) =
      if c = '<' then .found m
      else if c = '>' then .stop false
      else if c = '/' then .stop true
      else backScan T m := by
  rw [backScan, hc]

theorem backScan_succ_none (T : List Char) (m : Nat) (hc : T[m]? = none) :
    backScan T (m+1) = backScan T m := by
  rw [backScan, hc]

theorem backScan_found_char (T : List Char) :
    ∀ O s, backScan T O = .found s → T[s]? = some '<' ∧ (s < O ∨ (s = 0 ∧ O = 0)) := by
  intro O
  induction O with
  | zero =>
    intro s h
    rw [backScan] at h
    split at h
    · cases h
      exact ⟨by assumption, Or.inr ⟨rfl, rfl⟩⟩
    · cases h
  | succ m ih =>
    intro s h
    cases hc : T[m]? with
    | none =>
      rw [backScan_succ_none T m hc] at h
      have := ih s h
      exact ⟨this.1, Or.inl (by omega : s < m + 1)⟩
    | some c =>
      rw [backScan_succ_some T m c hc] at h
      by_cases h1 : c = '<'
      · subst h1
        rw [if_pos rfl] at h
        cases h
        exact ⟨hc, Or.inl (Nat.lt_succ_self m)⟩
      · rw [if_neg h1] at h
        by_cases h2 : c = '>'
        · rw [if_pos h2] at h; cases h
        · rw [if_neg h2] at h
          by_cases h3 : c = '/'
          · rw [if_pos h3] at h; cases h
          · rw [if_neg h3] at h
            have := ih s h
            exact ⟨this.1, Or.inl (by omega : s < m + 1)⟩

theorem backScan_found_of (T : List Char) (i : Nat) (hi : T[i]? = some '<') :
    ∀ O, i < O →
    (∀ k, k < O → i < k → ¬(T[k]? = some '<' ∨ T[k]? = some '>' ∨ T[k]? = some '/')) →
    backScan T O = .found i := by
  intro O
  induction O with
  | zero => intro h; omega
  | succ m ih =>
    intro hlt hcl
    by_cases him : i = m
    · subst him
      rw [backScan_succ_some T i '<' hi, if_pos rfl]
    · have hm : i < m := by omega
      have hne := hcl m (Nat.lt_succ_self m) hm
      cases hc : T[m]? with
      | none =>
        rw [backScan_succ_none T m hc]
        exact ih hm (fun k h1 h2 => hcl k (by omega) h2)
      | some c =>
        have c1 : ¬ c = '<' := fun e => hne (Or.inl (by rw [hc, e]))
        have c2 : ¬ c = '>' := fun e => hne (Or.inr (Or.inl (by rw [hc, e])))
        have c3 : ¬ c = '/' := fun e => hne (Or.inr (Or.inr (by rw [hc, e])))
        rw [backScan_succ_some T m c hc, if_neg c1, if_neg c2, if_neg c3]
        exact ih hm (fun k h1 h2 => hcl k (by omega) h2)

theorem fwdScanF_some (T : List Char) :
    ∀ fuel e j, fwdScanF T e fuel = some j → e < j ∧ T[j]? = some '>' := by
  intro fuel
  induction fuel with
  | zero => intro e j h; cases h
  | succ f ih =>
    intro e j h
    rw [fwdScanF] at h
    split at h
    · split at h
      · cases h
        exact ⟨Nat.lt_succ_self e, by assumption⟩
      · have := ih (e+1) j h
        exact ⟨by omega, this.2⟩
    · cases h

theorem fwdScanF_finds (T : List Char) :
    ∀ fuel e j, e < j → T[j]? = some '>' →
      (∀ k, k < j → e < k → T[k]? ≠ some '>') → j ≤ e + fuel →
      fwdScanF T e fuel = some j := by
  intro fuel
  induction fuel with
  | zero => intro e j h1 _ _ h4; omega
  | succ f ih =>
    intro e j h1 h2 h3 h4
    have hjlen : j < T.length := (List.getElem?_eq_some_iff.1 h2).1
    rw [fwdScanF, if_pos (by omega : e < T.length)]
    by_cases he : e + 1 = j
    · rw [he, if_pos h2]
    · rw [if_neg (h3 (e+1) (by omega) (by omega))]
      exact ih (e+1) j (by omega) h2 (fun k hk1 hk2 => h3 k hk1 (by omega)) (by omega)

theorem getHtmlTagName_eq_stop (T : List Char) (O : Nat) (e : Bool)
    (hb : backScan T O = .stop e) : getHtmlTagName T O = ⟨none, none, e⟩ := by
  unfold getHtmlTagName
  rw [hb]

theorem getHtmlTagName_eq_noFwd (T : List Char) (O s : Nat)
    (hb : backScan T O = .found s) (hf : fwdScan T O = none) :
    getHtmlTagName T O = ⟨none, none, false⟩ := by
  unfold getHtmlTagName
  rw [hb, hf]

theorem getHtmlTagName_eq_noTm (T : List Char) (O s j : Nat)
    (hb : backScan T O = .found s) (hf : fwdScan T O = some j)
    (htm : tagNameMatch (jsSubstring T (s+1) j) = none) :
    getHtmlTagName T O = ⟨none, none, false⟩ := by
  unfold getHtmlTagName
  simp only [hb, hf, htm]

theorem getHtmlTagName_eq_found (T : List Char) (O s j : Nat) (sl : Bool)
    (nm : List Char) (L : Nat)
    (hb : backScan T O = .found s) (hf : fwdScan T O = some j)
    (htm : tagNameMatch (jsSubstring T (s+1) j) = some (sl, nm, L)) :
    getHtmlTagName T O =
      ⟨if sl then none else some (nm.map lowerChar), some ⟨s+1, j⟩, false⟩ := by
  unfold getHtmlTagName
  simp only [hb, hf, htm]

/-- C10: whenever the tag scanner returns a non-null range, the original text
has `<` just before `range.start` and `>` at `range.end`, and
`1 ≤ range.start ≤ range.end < length`, so the substring taken by
`getTagContent`/`getAttributeName` is well-defined tag content. -/
theorem c10_range_invariant (T : List Char) (O : Nat) (r : TagRange)
    (h : (getHtmlTagName T O).range = some r) :
    T[r.start - 1]? = some '<' ∧ T[r.stop]? = some '>' ∧
    1 ≤ r.start ∧ r.start ≤ r.stop ∧ r.stop < T.length := by
  cases hb : backScan T O with
  | stop e =>
    rw [getHtmlTagName_eq_stop T O e hb] at h
    simp at h
  | found s =>
    cases hf : fwdScan T O with
    | none =>
      rw [getHtmlTagName_eq_noFwd T O s hb hf] at h
      simp at h
    | some j =>
      cases htm : tagNameMatch (jsSubstring T (s+1) j) with
      | none =>
        rw [getHtmlTagName_eq_noTm T O s j hb hf htm] at h
        simp at h
      | some v =>
        obtain ⟨sl, nm, L⟩ := v
        rw [getHtmlTagName_eq_found T O s j sl nm L hb hf htm] at h
        simp only [Option.some.injEq] at h
        have h1 := backScan_found_char T O s hb
        have h2 := fwdScanF_some T (T.length + 1) O j hf
        have hjlen : j < T.length := (List.getElem?_eq_some_iff.1 h2.2).1
        subst h
        refine ⟨by simpa using h1.1, h2.2, by show 1 ≤ s + 1; omega, ?_, hjlen⟩
        have h3 := h2.1
        show s + 1 ≤ j
        rcases h1.2 with hlt | ⟨hs0, hO0⟩ <;> omega

/-- Witness for C10 at a concrete input. -/
theorem c10_witness :
    ("<a>".toList)[(1 : Nat) - 1]? = some '<' ∧ ("<a>".toList)[(2 : Nat)]? = some '>' ∧
    1 ≤ 1 ∧ 1 ≤ 2 ∧ 2 < ("<a>".toList).length := by
  have h := c10_range_invariant ("<a>".toList) 1 ⟨1, 2⟩ (by decide)
  simp only [List.length_cons, List.length_nil] at h ⊢
  exact h

theorem backScan_stop_of (T : List Char) :
    ∀ O, (∀ idx, idx < O → (T[idx]? = some '<' ∨ T[idx]? = some '/') →
        ∃ m, m < O ∧ idx < m ∧ T[m]? = some '>') →
      (O = 0 → T[0]? ≠ some '<') →
      backScan T O = .stop false := by
  intro O
  induction O with
  | zero =>
    intro _ h2
    rw [backScan, if_neg (h2 rfl)]
  | succ m ih =>
    intro h1 h2
    have hrec : T[m]? ≠ some '>' → T[m]? ≠ some '<' → backScan T m = .stop false := by
      intro hne1 hne2
      apply ih
      · intro idx hidx hsp
        obtain ⟨m', hm1, hm2, hm3⟩ := h1 idx (by omega) hsp
        have hmm : ¬ m' = m := fun e => hne1 (by rw [← e]; exact hm3)
        exact ⟨m', by omega, hm2, hm3⟩
      · intro hm0
        subst hm0
        exact hne2
    cases hc : T[m]? with
    | none =>
      rw [backScan_succ_none T m hc]
      exact hrec (by rw [hc]; intro h; cases h) (by rw [hc]; intro h; cases h)
    | some c =>
      by_cases hgt : c = '>'
      · subst hgt
        rw [backScan_succ_some T m '>' hc]
        simp
      · have c1 : ¬ c = '<' := by
          intro e
          obtain ⟨m', hm1, hm2, _⟩ := h1 m (Nat.lt_succ_self m) (Or.inl (by rw [hc, e]))
          omega
        have c3 : ¬ c = '/' := by
          intro e
          obtain ⟨m', hm1, hm2, _⟩ := h1 m (Nat.lt_succ_self m) (Or.inr (by rw [hc, e]))
          omega
        rw [backScan_succ_some T m c hc, if_neg c1, if_neg hgt, if_neg c3]
        refine hrec ?_ ?_
        · intro h
          rw [hc] at h
          injection h with h'
          exact hgt h'
        · intro h
          rw [hc] at h
          injection h with h'
          exact c1 h'

/-- C3 amended: for every text `T` and offset `O` such that no `<` or `/`
occurs strictly before `O` without a `>` strictly between it and `O`, and
such that `T` does not begin with `<` when `O = 0`, `getHtmlTagName` returns
`{tagName: null, range: null, isEndTag: false}`. -/
theorem c3_amended_outside_scan (T : List Char) (O : Nat)
    (h1 : ∀ idx, idx < O → (T[idx]? = some '<' ∨ T[idx]? = some '/') →
        ∃ m, m < O ∧ idx < m ∧ T[m]? = some '>')
    (h2 : O = 0 → T[0]? ≠ some '<') :
    getHtmlTagName T O = ⟨none, none, false⟩ :=
  getHtmlTagName_eq_stop T O false (backScan_stop_of T O h1 h2)

/-- Witness for the amended C3 at a concrete input (`x<a>y`, cursor at the
end: the `<` before the cursor is closed by a `>` before the cursor). -/
theorem c3_amended_witness :
    (∀ idx, idx < 5 → (("x<a>y".toList)[idx]? = some '<' ∨ ("x<a>y".toList)[idx]? = some '/') →
        ∃ m, m < 5 ∧ idx < m ∧ ("x<a>y".toList)[m]? = some '>') ∧
    ((5 : Nat) = 0 → ("x<a>y".toList)[0]? ≠ some '<') ∧
    getHtmlTagName ("x<a>y".toList) 5 = ⟨none, none, false⟩ :=
  ⟨by decide, by decide, c3_amended_outside_scan ("x<a>y".toList) 5 (by decide) (by decide)⟩

theorem tagNameMatch_inv (c : List Char) (sl : Bool) (nm : List Char) (L : Nat)
    (h : tagNameMatch c = some (sl, nm, L)) :
    sl = tnSlash c ∧ nm = tnName c ∧ L = tnLen c ∧ (tnName c).length ≠ 0 := by
  unfold tagNameMatch at h
  split at h
  · cases h
  · simp only [Option.some.injEq, Prod.mk.injEq] at h
    exact ⟨h.1.symm, h.2.1.symm, h.2.2.symm, by assumption⟩

/-- C7: whenever the tag scanner extracts tag content whose leading marker
(first character after the optional whitespace) is `/` — an end tag with the
cursor past the `<` — the result has `tagName = null` while `range` is still
populated. -/
theorem c7_end_tag_marker (T : List Char) (O : Nat) (r : TagRange)
    (hr : (getHtmlTagName T O).range = some r)
    (hsl : ((jsSubstring T r.start r.stop).dropWhile jsWs).head? = some '/') :
    (getHtmlTagName T O).tagName = none ∧ (getHtmlTagName T O).range ≠ none := by
  cases hb : backScan T O with
  | stop e =>
    rw [getHtmlTagName_eq_stop T O e hb] at hr
    simp at hr
  | found s =>
    cases hf : fwdScan T O with
    | none =>
      rw [getHtmlTagName_eq_noFwd T O s hb hf] at hr
      simp at hr
    | some j =>
      cases htm : tagNameMatch (jsSubstring T (s+1) j) with
      | none =>
        rw [getHtmlTagName_eq_noTm T O s j hb hf htm] at hr
        simp at hr
      | some v =>
        obtain ⟨sl, nm, L⟩ := v
        rw [getHtmlTagName_eq_found T O s j sl nm L hb hf htm] at hr
        simp only [Option.some.injEq] at hr
        have hrr : r = ⟨s+1, j⟩ := hr.symm
        subst hrr
        have hsl2 := (tagNameMatch_inv _ sl nm L htm).1
        rw [getHtmlTagName_eq_found T O s j sl nm L hb hf htm]
        constructor
        · show (if sl then none else some (nm.map lowerChar)) = none
          have hslt : sl = true := by
            rw [hsl2]
            unfold tnSlash
            rw [List.headD_eq_head?]
            have : ((jsSubstring T (s+1) j).dropWhile jsWs).head? = some '/' := hsl
            rw [this]
            decide
          rw [hslt]
          simp
        · show (some (⟨s+1, j⟩ : TagRange) ≠ none)
          simp

/-- Witness for C7 at a concrete input (`</a>`, cursor just past the `<`). -/
theorem c7_witness :
    (getHtmlTagName ("</a>".toList) 1).range = some ⟨1, 3⟩ ∧
    ((jsSubstring ("</a>".toList) 1 3).dropWhile jsWs).head? = some '/' ∧
    (getHtmlTagName ("</a>".toList) 1).tagName = none ∧
    (getHtmlTagName ("</a>".toList) 1).range ≠ none := by
  refine ⟨by decide, by decide, ?_⟩
  exact c7_end_tag_marker ("</a>".toList) 1 ⟨1, 3⟩ (by decide) (by decide)

/-- C8: for every text, every tag range, and every offset strictly outside
that range, `getAttributeName` returns `null` immediately (it is a total
function, so no exception is possible). -/
theorem c8_out_of_range (T : List Char) (O : Nat) (r : TagRange)
    (h : O < r.start ∨ r.stop < O) : getAttributeName T O r = none := by
  unfold getAttributeName
  rw [if_pos h]

/-- Witness for C8 at a concrete input. -/
theorem c8_witness : ((0 : Nat) < 1 ∨ (1 : Nat) < 0) ∧
    getAttributeName ("ab".toList) 0 ⟨1, 1⟩ = none :=
  ⟨Or.inl (by decide), c8_out_of_range ("ab".toList) 0 ⟨1, 1⟩ (Or.inl (by decide))⟩

/-- C5: on the line-wrapped tag text over two newlines, at each offset inside
the token `bar` (offsets 15 to 18, the tag range being the one produced by the
tag scanner), `getAttributeName` returns `"bar"`. -/
theorem c5_wrapped_attribute :
    getHtmlTagName ("<x\n  foo=\"a\"\n  bar=\"b\">".toList) 16 =
      ⟨some ("x".toList), some ⟨1, 22⟩, false⟩ ∧
    getAttributeName ("<x\n  foo=\"a\"\n  bar=\"b\">".toList) 15 ⟨1, 22⟩ = some ("bar".toList) ∧
    getAttributeName ("<x\n  foo=\"a\"\n  bar=\"b\">".toList) 16 ⟨1, 22⟩ = some ("bar".toList) ∧
    getAttributeName ("<x\n  foo=\"a\"\n  bar=\"b\">".toList) 17 ⟨1, 22⟩ = some ("bar".toList) ∧
    getAttributeName ("<x\n  foo=\"a\"\n  bar=\"b\">".toList) 18 ⟨1, 22⟩ = some ("bar".toList) := by
  decide

/-- C3 counterexample: with the text `<a>` and offset `0`, the cursor lies
inside no `<...>` span (it sits before the `<`), yet `getHtmlTagName`
returns a populated result instead of `{null, null, false}`. -/
theorem c3_counterexample :
    ¬ insideSpan ("<a>".toList) 0 ∧
    getHtmlTagName ("<a>".toList) 0 = ⟨some ("a".toList), some ⟨1, 2⟩, false⟩ := by
  decide

/-- C4 counterexample: in `<div class="box">` at offset `2` (inside the tag
name `div`: the scanner's range is `⟨1, 16⟩`, the tag-name match has length
`4`, and `2 - 1 < 4`), `getAttributeName` returns `"class"`, not `null`. -/
theorem c4_counterexample :
    (getHtmlTagName ("<div class=\"box\">".toList) 2).range = some ⟨1, 16⟩ ∧
    tagNameMatch (jsSubstring ("<div class=\"box\">".toList) 1 16) =
      some (false, "div".toList, 4) ∧
    2 - (1 : Nat) < 4 ∧
    getAttributeName ("<div class=\"box\">".toList) 2 ⟨1, 16⟩ = some ("class".toList) := by
  decide

/-- C2 counterexample: after merging key `"a,b"` (description `d1`,
attributes `{x}`) and then key `"b"` (description `d2`, attributes `{y}`),
the entry for `a` is `{description: "d2", attributes: {x, y}}` — the record
is shared by reference with `b` — and not the claimed
`{description: "d1", attributes: {x}}`. -/
theorem c2_counterexample :
    (loadWorkspaceConfig cfgEntries).find? (fun p => p.1 == "a".toList) =
      some ("a".toList, ⟨"d2".toList, [("x".toList, cfgX), ("y".toList, cfgY)]⟩) ∧
    (⟨"d2".toList, [("x".toList, cfgX), ("y".toList, cfgY)]⟩ : RawEntry) ≠
      ⟨"d1".toList, [("x".toList, cfgX)]⟩ := by
  decide

/-- C2 amended: the merged entry for `b` has description `d2` and attributes
`{x, y}`; and since the comma-grouped key binds `a` and `b` to the same
record by reference, the entry for `a` is that same record. -/
theorem c2_amended_merge :
    loadWorkspaceConfig cfgEntries =
      [("a".toList, ⟨"d2".toList, [("x".toList, cfgX), ("y".toList, cfgY)]⟩),
       ("b".toList, ⟨"d2".toList, [("x".toList, cfgX), ("y".toList, cfgY)]⟩)] := by
  decide

/-- C6: `provideCompletionItems` can throw.  With an empty components
registry and the document `<div class="box">` with the cursor at offset `8`
(inside the attribute `class`), `res2` is truthy while
`componentsTags?.["div"]?.attributes` is `undefined`, so evaluating
`attributes[res2]` raises a `TypeError` instead of returning a suggestion
list. -/
theorem c6_throws_on_unknown_tag :
    provideCompletionItems [] ("<div class=\"box\">".toList) 8 none =
      .error ("TypeError: Cannot read properties of undefined (reading attribute)".toList) :=
  rfl

/-- C9 counterexample: for the path `xgit`, no path segment of the
normalized path equals `node_modules`, `.git`, or `dist`, yet
`isIgnoredPath` returns `true` (the unescaped `.` of `.git` matches the
`x`). -/
theorem c9_counterexample :
    isIgnoredPath ("xgit".toList) = true ∧
    hasSegment (normalizePath ("xgit".toList)) ("node_modules".toList) = false ∧
    hasSegment (normalizePath ("xgit".toList)) (".git".toList) = false ∧
    hasSegment (normalizePath ("xgit".toList)) ("dist".toList) = false := by
  decide

end WebComp

namespace WebComp

theorem nameChar_not_ws (c : Char) (h : isNameChar c = true) : jsWs c = false := by
  simp only [isNameChar, decide_eq_true_eq] at h
  simp only [jsWs, decide_eq_false_iff_not]
  omega

theorem tagNameMatch_of_name (c : List Char) (ch : Char) (t : List Char)
    (hd : c.dropWhile jsWs = ch :: t) (hch : isNameChar ch = true) :
    tnSlash c = false ∧ tnName c = (ch :: t).takeWhile isNameChar ∧
    tagNameMatch c = some (false, tnName c, tnLen c) := by
  have hslash : tnSlash c = false := by
    unfold tnSlash
    rw [hd]
    simp only [List.headD_cons]
    apply decide_eq_false
    intro e
    subst e
    exact absurd hch (by decide)
  have hrest : tnRest c = ch :: t := by
    unfold tnRest
    rw [hslash, hd]
    simp
  have hws : ¬ (jsWs ch = true) := by rw [nameChar_not_ws ch hch]; simp
  have hdw : (tnRest c).dropWhile jsWs = ch :: t := by
    rw [hrest]
    exact List.dropWhile_cons_of_neg hws
  have hnm : tnName c = (ch :: t).takeWhile isNameChar := by
    unfold tnName
    rw [hdw]
  have hlen : ¬ (tnName c).length = 0 := by
    rw [hnm, List.takeWhile_cons_of_pos hch]
    simp
  refine ⟨hslash, hnm, ?_⟩
  unfold tagNameMatch
  rw [if_neg hlen, hslash]

theorem take_name_jsTrim (c : List Char) (ch : Char) (t : List Char)
    (hd : c.dropWhile jsWs = ch :: t) :
    (jsTrim c).take ((ch :: t).takeWhile isNameChar).length =
      (ch :: t).takeWhile isNameChar := by
  set w := (ch :: t).takeWhile isNameChar with hw
  set rest := (ch :: t).dropWhile isNameChar with hrest
  have hsplit : ch :: t = w ++ rest := (List.takeWhile_append_dropWhile isNameChar (ch :: t)).symm
  have hwall : ∀ x ∈ w, isNameChar x = true := fun x hx => List.mem_takeWhile_imp hx
  have hwdrop : List.dropWhile jsWs w.reverse = w.reverse := by
    cases hwr : w.reverse with
    | nil => simp
    | cons x xs =>
      have hx : x ∈ w := by
        rw [← List.mem_reverse, hwr]
        exact List.mem_cons_self x xs
      exact List.dropWhile_cons_of_neg (by rw [nameChar_not_ws x (hwall x hx)]; simp)
  unfold jsTrim
  rw [hd, hsplit, List.reverse_append, List.dropWhile_append]
  split
  · rw [hwdrop, List.reverse_reverse, List.take_length]
  · rw [List.reverse_append, List.reverse_reverse]
    exact List.take_left w _

/-- C1 amended: for every text `T`, delimiters `<` at `i` and `>` at `j`
with no `<`, `>` or `/` strictly between them, whose content (after leading
whitespace) starts with a `[a-zA-Z0-9-]` name character, and every offset
`O` strictly between `i` and `j`: `getHtmlTagName` returns the lower-cased
first word of the content as `tagName`, the range `⟨i+1, j⟩`, and
`isEndTag = false`; and the substring of `T` at that range, after trimming,
starts with that first word (hence, up to the lower-casing, with `tagName`). -/
theorem c1_amended_tag_scan (T : List Char) (i j O : Nat)
    (hlt : T[i]? = some '<') (hgt : T[j]? = some '>')
    (hiO : i < O) (hOj : O < j)
    (hcl : ∀ k, k < j → i < k →
      ¬(T[k]? = some '<' ∨ T[k]? = some '>' ∨ T[k]? = some '/'))
    (hname : isNameChar (((jsSubstring T (i+1) j).dropWhile jsWs).headD ' ') = true) :
    getHtmlTagName T O =
      ⟨some ((((jsSubstring T (i+1) j).dropWhile jsWs).takeWhile isNameChar).map lowerChar),
        some ⟨i+1, j⟩, false⟩ ∧
    (jsTrim (jsSubstring T (i+1) j)).take
        (((jsSubstring T (i+1) j).dropWhile jsWs).takeWhile isNameChar).length =
      ((jsSubstring T (i+1) j).dropWhile jsWs).takeWhile isNameChar := by
  obtain ⟨ch, t, hd⟩ : ∃ ch t, (jsSubstring T (i+1) j).dropWhile jsWs = ch :: t := by
    cases hdl : (jsSubstring T (i+1) j).dropWhile jsWs with
    | nil => rw [hdl] at hname; exact absurd hname (by decide)
    | cons ch t => exact ⟨ch, t, rfl⟩
  have hch : isNameChar ch = true := by rw [hd] at hname; simpa using hname
  have hback : backScan T O = .found i :=
    backScan_found_of T i hlt O hiO (fun k h1 h2 => hcl k (by omega) h2)
  have hfwd : fwdScan T O = some j := by
    have hjlen : j < T.length := (List.getElem?_eq_some_iff.1 hgt).1
    exact fwdScanF_finds T (T.length + 1) O j hOj hgt
      (fun k hk1 hk2 he => hcl k hk1 (by omega) (Or.inr (Or.inl he))) (by omega)
  obtain ⟨hslash, hnm, htm⟩ := tagNameMatch_of_name _ ch t hd hch
  constructor
  · rw [getHtmlTagName_eq_found T O i j false (tnName (jsSubstring T (i+1) j))
      (tnLen (jsSubstring T (i+1) j)) hback hfwd htm]
    rw [hnm, hd]
    rfl
  · rw [hd]
    exact take_name_jsTrim _ ch t hd

/-- Witness for the amended C1 at a concrete input (`<ab cd>`, cursor at
offset 2). -/
theorem c1_amended_witness :
    getHtmlTagName ("<ab cd>".toList) 2 =
      ⟨some ((((jsSubstring ("<ab cd>".toList) 1 6).dropWhile jsWs).takeWhile isNameChar).map
          lowerChar),
        some ⟨1, 6⟩, false⟩ ∧
    (jsTrim (jsSubstring ("<ab cd>".toList) 1 6)).take
        (((jsSubstring ("<ab cd>".toList) 1 6).dropWhile jsWs).takeWhile isNameChar).length =
      ((jsSubstring ("<ab cd>".toList) 1 6).dropWhile jsWs).takeWhile isNameChar :=
  c1_amended_tag_scan ("<ab cd>".toList) 0 6 2 (by decide) (by decide) (by decide) (by decide)
    (by decide) (by decide)

/-- C1 counterexample: `</a>` is a well-formed (end) tag and offset `2` lies
strictly between its delimiters, yet the scanner returns `tagName = null`
with no range at all (the backward scan hits the `/` first). -/
theorem c1_counterexample :
    ("</a>".toList)[(0 : Nat)]? = some '<' ∧ ("</a>".toList)[(3 : Nat)]? = some '>' ∧
    ¬(("</a>".toList)[(1 : Nat)]? = some '<' ∨ ("</a>".toList)[(1 : Nat)]? = some '>') ∧
    ¬(("</a>".toList)[(2 : Nat)]? = some '<' ∨ ("</a>".toList)[(2 : Nat)]? = some '>') ∧
    getHtmlTagName ("</a>".toList) 2 = ⟨none, none, true⟩ := by
  decide

end WebComp

namespace WebComp

theorem attrExec_some (l : List Char) :
    ∀ i nm st sp, attrExec l i = some (nm, st, sp) → i ≤ st ∧ st < sp := by
  induction l with
  | nil => intro i nm st sp h; cases h
  | cons c t ih =>
    intro i nm st sp h
    rw [attrExec] at h
    split at h
    · simp only [Option.some.injEq, Prod.mk.injEq] at h
      obtain ⟨h1, h2, h3⟩ := h
      subst h2
      subst h3
      have hpos : 0 < ((c :: t).takeWhile isNameChar).length := by
        rw [List.takeWhile_cons_of_pos (by assumption)]
        simp
      omega
    · have := ih (i+1) nm st sp h
      omega

theorem attrLoopF_succ_none (s : List Char) (pos : Int) (i f : Nat)
    (hx : attrExec (s.drop i) i = none) : attrLoopF s pos i (f+1) = none := by
  rw [attrLoopF, hx]

theorem attrLoopF_succ_some (s : List Char) (pos : Int) (i f : Nat)
    (nm : List Char) (st sp : Nat)
    (hx : attrExec (s.drop i) i = some (nm, st, sp)) :
    attrLoopF s pos i (f+1) =
      if (st : Int) ≤ pos ∧ pos ≤ (sp : Int) then some (nm.map lowerChar)
      else attrLoopF s pos sp f := by
  rw [attrLoopF, hx]

theorem attrLoopF_none_of_lt (s : List Char) (pos : Int) :
    ∀ fuel : Nat, ∀ i : Nat, pos < (i : Int) → attrLoopF s pos i fuel = none := by
  intro fuel
  induction fuel with
  | zero => intro i _; rfl
  | succ f ih =>
    intro i hpos
    cases hx : attrExec (s.drop i) i with
    | none => exact attrLoopF_succ_none s pos i f hx
    | some v =>
      obtain ⟨nm, st, sp⟩ := v
      have hb := attrExec_some _ i nm st sp hx
      rw [attrLoopF_succ_some s pos i f nm st sp hx]
      rw [if_neg (by omega : ¬((st : Int) ≤ pos ∧ pos ≤ (sp : Int)))]
      exact ih sp (by omega)

theorem firstAttrAt0_cons_pos (c : Char) (t : List Char) (h : isNameChar c = true) :
    firstAttrAt0 (c :: t) = some (((c :: t).takeWhile isNameChar).map lowerChar) := by
  unfold firstAttrAt0
  rw [if_pos ⟨List.cons_ne_nil c t, by simpa using h⟩]

theorem firstAttrAt0_cons_neg (c : Char) (t : List Char) (h : ¬ isNameChar c = true) :
    firstAttrAt0 (c :: t) = none := by
  unfold firstAttrAt0
  rw [if_neg (fun hc => h (by simpa using hc.2))]

/-- The attribute-regex loop at clean cursor position `0` computes
`firstAttrAt0`. -/
theorem attrLoop_zero (cl : List Char) : attrLoop cl 0 = firstAttrAt0 cl := by
  cases cl with
  | nil => decide
  | cons c t =>
    unfold attrLoop
    by_cases hnc : isNameChar c
    · have hx : attrExec ((c :: t).drop 0) 0 = some ((c :: t).takeWhile isNameChar, 0,
          0 + ((c :: t).takeWhile isNameChar).length +
            (valuePartLen ((c :: t).drop ((c :: t).takeWhile isNameChar).length)).getD 0) := by
        rw [List.drop_zero, attrExec, if_pos hnc]
      rw [firstAttrAt0_cons_pos c t hnc]
      rw [show (c :: t).length + 1 = ((c :: t).length) + 1 from rfl]
      rw [attrLoopF_succ_some _ _ _ _ _ _ _ hx]
      rw [if_pos ⟨le_refl (0 : Int), by positivity⟩]
    · rw [firstAttrAt0_cons_neg c t hnc]
      rw [show (c :: t).length + 1 = ((c :: t).length) + 1 from rfl]
      have hstep : attrExec ((c :: t).drop 0) 0 = attrExec t 1 := by
        rw [List.drop_zero, attrExec, if_neg hnc]
      cases hx : attrExec t 1 with
      | none =>
        exact attrLoopF_succ_none _ _ _ _ (by rw [hstep, hx])
      | some v =>
        obtain ⟨nm, st, sp⟩ := v
        have hb := attrExec_some t 1 nm st sp hx
        rw [attrLoopF_succ_some _ _ _ _ nm st sp (by rw [hstep, hx])]
        rw [if_neg (by omega : ¬((st : Int) ≤ 0 ∧ (0 : Int) ≤ (sp : Int)))]
        exact attrLoopF_none_of_lt _ _ _ sp (by omega)

theorem cleanCursorPos_neg (ac : List Char) (rel : Int) (h : rel < 0) :
    cleanCursorPos ac rel = 0 := by
  have h0 : cleanP0 ac rel = 0 := by
    unfold cleanP0
    rw [if_neg (by omega : ¬(0 ≤ rel))]
  unfold cleanCursorPos
  rw [h0]
  rw [if_neg (by intro hc; exact absurd hc.1 (by decide))]

/-- C4 amended: when `getAttributeName` is invoked with an offset inside the
tag's name region (within the range, with the offset before the end of the
tag-name match), the cursor is snapped to position 0 of the attribute
region, so the result is the lower-cased leading attribute name when the
newline-stripped attribute region begins with an attribute-name character,
and `null` otherwise (in particular `null` whenever the tag has no
attributes). -/
theorem c4_amended_name_region (T : List Char) (O : Nat) (r : TagRange)
    (h1 : r.start ≤ O) (h2 : O ≤ r.stop)
    (sl : Bool) (nm : List Char) (plen : Nat)
    (htm : tagNameMatch (jsSubstring T r.start r.stop) = some (sl, nm, plen))
    (hreg : O - r.start < plen) :
    getAttributeName T O r =
      firstAttrAt0 (cleanOf ((jsSubstring T r.start r.stop).drop plen)) := by
  unfold getAttributeName
  rw [if_neg (by omega : ¬(O < r.start ∨ r.stop < O)), htm]
  have hrel : ((O : Int) - (r.start : Int)) - (plen : Int) < 0 := by omega
  show attrLoop (cleanOf ((jsSubstring T r.start r.stop).drop plen))
      (cleanCursorPos ((jsSubstring T r.start r.stop).drop plen)
        (((O : Int) - (r.start : Int)) - (plen : Int))) =
    firstAttrAt0 (cleanOf ((jsSubstring T r.start r.stop).drop plen))
  rw [cleanCursorPos_neg _ _ hrel]
  exact attrLoop_zero _

/-- Witness for the amended C4 at a concrete input (`<div class="box">`,
offset 2, inside the tag name). -/
theorem c4_amended_witness :
    ((1 : Nat) ≤ 2 ∧ (2 : Nat) ≤ 16) ∧
    tagNameMatch (jsSubstring ("<div class=\"box\">".toList) 1 16) =
      some (false, "div".toList, 4) ∧
    2 - (1 : Nat) < 4 ∧
    getAttributeName ("<div class=\"box\">".toList) 2 ⟨1, 16⟩ =
      firstAttrAt0 (cleanOf ((jsSubstring ("<div class=\"box\">".toList) 1 16).drop 4)) :=
  ⟨⟨by decide, by decide⟩, by decide, by decide,
    c4_amended_name_region ("<div class=\"box\">".toList) 2 ⟨1, 16⟩ (by decide) (by decide)
      false ("div".toList) 4 (by decide) (by decide)⟩

theorem anyCongr {α : Type} {l : List α} {f g : α → Bool} (h : ∀ x, f x = g x) :
    l.any f = l.any g := by
  induction l with
  | nil => rfl
  | cons a t ih => simp only [List.any_cons, h a, ih]

theorem patMatchAt_no_dot : ∀ (d l : List Char), '.' ∉ d →
    patMatchAt d l = (l.take d.length == d) := by
  intro d
  induction d with
  | nil => intro l _; simp [patMatchAt]
  | cons p ps ih =>
    intro l hnd
    cases l with
    | nil => simp [patMatchAt]
    | cons c cs =>
      have hp : ¬ p = '.' := fun e => hnd (by rw [e]; exact List.mem_cons_self '.' ps)
      rw [patMatchAt, ih cs (fun hm => hnd (List.mem_cons_of_mem p hm))]
      unfold wildEq
      rw [if_neg hp]
      by_cases hpc : p = c
      · subst hpc
        simp
      · have hb1 : (p == c) = false := beq_eq_false_iff_ne.mpr hpc
        have hb2 : (c == p) = false := beq_eq_false_iff_ne.mpr (fun e => hpc e.symm)
        simp [hb1, hb2]

theorem regexDirTest_eq_hasSegment (dir s : List Char) (hnd : '.' ∉ dir) :
    regexDirTest dir s = hasSegment s dir := by
  unfold regexDirTest hasSegment
  apply anyCongr
  intro i
  unfold dirMatchAt
  rw [patMatchAt_no_dot dir (s.drop i) hnd]

/-- C9 amended: `isIgnoredPath` returns `true` iff, after separator
normalization and lower-casing, some path segment equals `node_modules` or
`dist`, or the path matches the regex `(^|/).git(/|$)` in which the
unescaped `.` is a wildcard for any non-newline character (so e.g. `xgit`
is also ignored); for the two dot-free names the regex is exactly segment
equality. -/
theorem c9_amended_ignored_path (p : List Char) :
    isIgnoredPath p = true ↔
      (hasSegment (normalizePath p) ("node_modules".toList) = true ∨
       hasSegment (normalizePath p) ("dist".toList) = true ∨
       regexDirTest (".git".toList) (normalizePath p) = true) := by
  unfold isIgnoredPath
  simp only [List.any_cons, List.any_nil, Bool.or_eq_true, Bool.or_false]
  rw [regexDirTest_eq_hasSegment ("node_modules".toList) (normalizePath p) (by decide),
      regexDirTest_eq_hasSegment ("dist".toList) (normalizePath p) (by decide)]
  tauto

end WebComp
